import Mathlib

/-!
Shallow embedding of the AQL query-builder core of arangojs (`src/aql.ts`):
the template-tag function `aql`, its helper `aql.join`, and the generated
query representation, together with proofs of the specified properties.

JS values that may be interpolated into a template invocation are modelled
as a closed sum (`AqlValue`).  Object identity — which JS strict equality
(`===`) compares for non-primitive values — is modelled by a numeric
identity token carried by every constructor that represents a heap object
(named resource references and opaque composite values): two embedded
values denote the same JS object exactly when their identity tokens agree.
-/

namespace Arangojs

/-- The kind tag of a named resource reference (collection / graph / view). -/
inductive ResKind where
  | collection
  | graph
  | view
deriving DecidableEq

/-- A plain bind-able JS value: a primitive (string / number / boolean /
null) or an opaque composite object identified by an identity token.
JS `===` on these is primitive value equality, resp. object identity,
which is structural equality of this type. -/
inductive BindValue where
  | str (s : String)
  | num (n : Int)
  | bool (b : Bool)
  | null
  | obj (id : Nat)
deriving DecidableEq

/-- A value that can be interpolated into an `aql` template invocation
(aql.ts `AqlValue`), as a closed sum in the dispatch priority order of the
builder: nested generated query, `undefined`, AQL literal, and bind-able
values (named resource references and plain values).

`genQuery` carries the four components of a `GeneratedAqlQuery`: the
finalized `query` string, the `bindVars` mapping (an association list in
insertion order), and the two arrays returned by its `_source()` replay
closure (`strings` and `args`). -/
inductive AqlValue where
  | resource (id : Nat) (kind : ResKind) (rname : String)
  | genQuery (query : String) (bindVars : List (String × AqlValue))
      (strings : List String) (args : List AqlValue)
  | lit (text : String)
  | undef
  | bind (v : BindValue)

namespace AqlValue

/-- The `query` field of a generated query (`""` for other values). -/
def queryStr : AqlValue → String
  | .genQuery q _ _ _ => q
  | _ => ""

/-- The `bindVars` field of a generated query (empty for other values). -/
def bindVarsOf : AqlValue → List (String × AqlValue)
  | .genQuery _ bv _ _ => bv
  | _ => []

/-- The `strings` array captured by the `_source()` closure of a generated
query (empty for other values). -/
def stringsOf : AqlValue → List String
  | .genQuery _ _ ss _ => ss
  | _ => []

/-- The `args` array captured by the `_source()` closure of a generated
query (empty for other values). -/
def argsOf : AqlValue → List AqlValue
  | .genQuery _ _ _ as => as
  | _ => []

end AqlValue

/-- Modelled from the spec: the recognizer predicates `isArangoCollection`,
`isArangoGraph` and `isArangoView` (imported by aql.ts from collection.ts,
graph.ts and view.ts, which are not part of this source tree) identify a
Named Resource reference structurally by its `name` string field plus a
kind-tag field from a small fixed set.  In the closed value embedding they
hold exactly for the `resource` constructor. -/
def isResource : AqlValue → Bool
  | .resource _ _ _ => true
  | _ => false

/-- JS strict equality (`===`) restricted to the values that can reach the
bind-parameter scan at aql.ts:243 (named resource references and plain
bind-able values): resource references are JS objects and compare by
identity; plain values compare by primitive value resp. object identity.
All other comparisons (always between distinct shapes or distinct objects)
are false. -/
def strictEq : AqlValue → AqlValue → Bool
  | .resource i _ _, .resource j _ _ => i == j
  | .bind v, .bind w => v == w
  | _, _ => false

/-- aql.ts:214/252: `let value = rawValue; … value = rawValue.name` — the
value stored into `bindVars` is the resource's name string for a resource
reference and the raw value itself otherwise. -/
def resolveValue : AqlValue → AqlValue
  | .resource _ _ n => .bind (.str n)
  | v => v

mutual

/-- Size of an interpolated value, counting the arguments captured inside
nested generated queries; used as the termination measure of the builder
walk. -/
def sizeVal : AqlValue → Nat
  | .genQuery _ _ _ as => 2 + sizeArgs as
  | _ => 1

/-- Total size of an argument list. -/
def sizeArgs : List AqlValue → Nat
  | [] => 0
  | a :: as => sizeVal a + sizeArgs as

end

theorem sizeArgs_append (l₁ l₂ : List AqlValue) :
    sizeArgs (l₁ ++ l₂) = sizeArgs l₁ + sizeArgs l₂ := by
  induction l₁ with
  | nil => simp [sizeArgs]
  | cons a as ih => simp [sizeArgs, ih]; omega

theorem sizeVal_pos (a : AqlValue) : 1 ≤ sizeVal a := by
  cases a <;> (simp only [sizeVal]; omega)

/-- The working state of one builder invocation (aql.ts:208-259).  The JS
code walks the mutable arrays `strings` and `args` with an index `i`; here
the already-processed prefixes are kept (reversed) in `doneStrings` /
`doneArgs`, the fragment `strings[i]` — which in-place splices may still
extend — is `curString`, and `restStrings` / `restArgs` are
`strings[i+1…]` / `args[i…]`. -/
structure BuilderState where
  query : String
  doneStrings : List String
  curString : String
  restStrings : List String
  doneArgs : List AqlValue
  restArgs : List AqlValue
  bindValues : List AqlValue
  bindVars : List (String × AqlValue)

/-- The working `strings` array of a state (aql.ts:208). -/
def fragmentsOf (s : BuilderState) : List String :=
  s.doneStrings.reverse ++ s.curString :: s.restStrings

/-- The working `args` array of a state (aql.ts:206, after splices). -/
def argListOf (s : BuilderState) : List AqlValue :=
  s.doneArgs.reverse ++ s.restArgs

/-- The bind branch of the builder loop (aql.ts:243-258): scan the
previously bound values of this invocation for a strictly-equal value;
reuse its index if found, otherwise assign the next sequential index and
record the value; resource references get an extra `@` sigil on the
parameter name and are stored by their name string.  The query string
receives the placeholder `@name` followed by the next fragment. -/
def bindStep (v : AqlValue) (s : BuilderState) : BuilderState :=
  let idx := s.bindValues.findIdx? (fun b => strictEq b v)
  let base := "value" ++ toString (idx.getD s.bindValues.length)
  let name := if isResource v then "@" ++ base else base
  { s with query := s.query ++ ("@" ++ name ++ s.restStrings.headD ""),
           doneStrings := s.curString :: s.doneStrings,
           curString := s.restStrings.headD "",
           restStrings := s.restStrings.tail,
           doneArgs := v :: s.doneArgs,
           restArgs := s.restArgs.tail,
           bindValues :=
             if idx.isSome then s.bindValues else s.bindValues ++ [v],
           bindVars :=
             if idx.isSome then s.bindVars
             else s.bindVars ++ [(name, resolveValue v)] }

/-- One iteration of the builder loop (aql.ts:212-259), processing
`args[i]`:

* a nested generated query with arguments splices its captured source
  into the working arrays and reprocesses the same index (aql.ts:215-226);
* a nested generated query without arguments splices its finalized query
  text directly (aql.ts:227-231);
* `undefined` contributes nothing (aql.ts:235-238);
* an AQL literal is inlined as raw text (aql.ts:239-242);
* any other value is bound: previously bound values are scanned by strict
  equality, the first match's index is reused, otherwise the value gets
  the next sequential index and is recorded; resource references get an
  extra `@` sigil on the parameter name and are stored by name
  (aql.ts:243-258).

Array accesses that are always in range for builder-produced nested
queries and tag invocations (`src.strings[0]`, `src.strings[src.args
.length]`, `strings[i + 1]`) are modelled with an empty-string default;
JS would instead concatenate the text `undefined` for a hand-crafted
out-of-range source. -/
def aqlStep (s : BuilderState) : BuilderState :=
  match s.restArgs with
  | [] => s
  | rawValue :: rest =>
    match rawValue with
    | .genQuery innerQuery _ srcStrings srcArgs =>
      if srcArgs.isEmpty then
        let t := innerQuery ++ s.restStrings.headD ""
        { s with query := s.query ++ t,
                 curString := s.curString ++ t,
                 restStrings := s.restStrings.tail,
                 restArgs := rest }
      else
        let h0 := srcStrings.headD ""
        { s with query := s.query ++ h0,
                 curString := s.curString ++ h0,
                 restStrings :=
                   (srcStrings.drop 1).take (srcArgs.length - 1) ++
                     (srcStrings.getD srcArgs.length "" ++ s.restStrings.headD "") ::
                       s.restStrings.tail,
                 restArgs := srcArgs ++ rest }
    | .undef =>
      { s with query := s.query ++ s.restStrings.headD "",
               doneStrings := s.curString :: s.doneStrings,
               curString := s.restStrings.headD "",
               restStrings := s.restStrings.tail,
               doneArgs := AqlValue.undef :: s.doneArgs,
               restArgs := rest }
    | .lit t =>
      { s with query := s.query ++ (t ++ s.restStrings.headD ""),
               doneStrings := s.curString :: s.doneStrings,
               curString := s.restStrings.headD "",
               restStrings := s.restStrings.tail,
               doneArgs := AqlValue.lit t :: s.doneArgs,
               restArgs := rest }
    | v => bindStep v s

theorem aqlStep_decreasing (s : BuilderState) (h : s.restArgs ≠ []) :
    sizeArgs (aqlStep s).restArgs < sizeArgs s.restArgs := by
  match hr : s.restArgs with
  | [] => exact absurd hr h
  | rawValue :: rest =>
    cases rawValue with
    | genQuery q bv ss as =>
      by_cases he : as.isEmpty <;>
        simp [aqlStep, bindStep, hr, he, sizeArgs, sizeVal, sizeArgs_append]
    | resource i k n => simp [aqlStep, bindStep, hr, sizeArgs, sizeVal]
    | lit t => simp [aqlStep, bindStep, hr, sizeArgs, sizeVal]
    | undef => simp [aqlStep, bindStep, hr, sizeArgs, sizeVal]
    | bind v => simp [aqlStep, bindStep, hr, sizeArgs, sizeVal]

/-- The builder loop (aql.ts:212-259): iterate `aqlStep` until the
argument stream is exhausted. -/
def aqlLoop (s : BuilderState) : BuilderState :=
  if h : s.restArgs.isEmpty then s
  else aqlLoop (aqlStep s)
termination_by sizeArgs s.restArgs
decreasing_by exact aqlStep_decreasing s (by simpa using h)

/-- The initial working state of an invocation (aql.ts:208-211):
`query = strings[0]`, index 0, no bindings yet. -/
def initState (templateStrings : List String) (args : List AqlValue) :
    BuilderState :=
  { query := templateStrings.headD ""
    doneStrings := []
    curString := templateStrings.headD ""
    restStrings := templateStrings.tail
    doneArgs := []
    restArgs := args
    bindValues := []
    bindVars := [] }

/-- The template-tag function `aql` (aql.ts:204-265): walk the fragments
and interpolated values and return the generated query, whose `_source()`
closure captures the post-splice working arrays (aql.ts:263). -/
def aql (templateStrings : List String) (args : List AqlValue) : AqlValue :=
  let f := aqlLoop (initState templateStrings args)
  .genQuery f.query f.bindVars (fragmentsOf f) (argListOf f)

/-- `aql.join` (aql.ts:401-415): an empty list yields `` aql`` ``, a
single value yields `` aql`${values[0]}` ``, and otherwise all values are
interpolated into one invocation with the separator text as the literal
fragment between each adjacent pair.  The separator (JS default: a single
space) is passed explicitly. -/
def join (values : List AqlValue) (sep : String) : AqlValue :=
  match values with
  | [] => aql [""] []
  | [x] => aql ["", ""] [x]
  | _ => aql ("" :: (List.replicate (values.length - 1) sep ++ [""])) values

theorem aqlLoop_eq (s : BuilderState) :
    aqlLoop s = if s.restArgs.isEmpty then s else aqlLoop (aqlStep s) := by
  rw [aqlLoop]
  split <;> rfl

theorem aqlLoop_restArgs (s : BuilderState) : (aqlLoop s).restArgs = [] := by
  induction s using aqlLoop.induct with
  | case1 s h => rw [aqlLoop_eq, if_pos h]; simpa using h
  | case2 s h ih => rw [aqlLoop_eq, if_neg h]; exact ih

/-- C4: invoking the builder with fragments
`["FOR d IN ", " FILTER d.x == ", " RETURN d"]` and arguments (a
collection reference named `"items"`, the number `5`) produces exactly
`query = "FOR d IN @@value0 FILTER d.x == @value1 RETURN d"` and
`bindVars = {"@value0": "items", "value1": 5}`. -/
theorem end_to_end_example :
    (aql ["FOR d IN ", " FILTER d.x == ", " RETURN d"]
        [.resource 0 .collection "items", .bind (.num 5)]).queryStr =
      "FOR d IN @@value0 FILTER d.x == @value1 RETURN d" ∧
    (aql ["FOR d IN ", " FILTER d.x == ", " RETURN d"]
        [.resource 0 .collection "items", .bind (.num 5)]).bindVarsOf =
      [("@value0", AqlValue.bind (.str "items")),
       ("value1", AqlValue.bind (.num 5))] := by
  constructor
  · simp [aql, aqlLoop_eq, aqlStep, bindStep, initState, strictEq, isResource,
      resolveValue, AqlValue.queryStr, AqlValue.bindVarsOf]
    rfl
  · simp [aql, aqlLoop_eq, aqlStep, bindStep, initState, strictEq, isResource,
      resolveValue, AqlValue.queryStr, AqlValue.bindVarsOf]
    exact ⟨rfl, rfl⟩

/-- C2: the bind-name assignment rule.  Interpolating the same bind-able
value twice in one invocation yields exactly one `bindVars` entry and two
occurrences of the same placeholder token in the query string, because the
strict-equality scan finds the earlier binding and reuses its index; two
values that are not strictly equal yield two distinct sequentially indexed
bind entries. -/
theorem bind_dedup (s₁ s₂ s₃ : String) (v w : BindValue) :
    ((aql [s₁, s₂, s₃] [.bind v, .bind v]).queryStr =
        s₁ ++ "@value0" ++ s₂ ++ "@value0" ++ s₃ ∧
      (aql [s₁, s₂, s₃] [.bind v, .bind v]).bindVarsOf =
        [("value0", AqlValue.bind v)]) ∧
    (v ≠ w →
      (aql [s₁, s₂, s₃] [.bind v, .bind w]).queryStr =
          s₁ ++ "@value0" ++ s₂ ++ "@value1" ++ s₃ ∧
        (aql [s₁, s₂, s₃] [.bind v, .bind w]).bindVarsOf =
          [("value0", AqlValue.bind v), ("value1", AqlValue.bind w)]) := by
  have h0 : "@" ++ ("value" ++ toString (0 : Nat)) = "@value0" := rfl
  have h1 : "@" ++ ("value" ++ toString (1 : Nat)) = "@value1" := rfl
  have t0 : "value" ++ toString (0 : Nat) = "value0" := rfl
  have t1 : "value" ++ toString (1 : Nat) = "value1" := rfl
  constructor
  · constructor
    · simp [aql, aqlLoop_eq, aqlStep, bindStep, initState, strictEq, isResource,
        resolveValue, AqlValue.queryStr, String.append_assoc, h0]
    · simp [aql, aqlLoop_eq, aqlStep, bindStep, initState, strictEq, isResource,
        resolveValue, AqlValue.bindVarsOf, t0]
  · intro hne
    have hb : (v == w) = false := beq_eq_false_iff_ne.mpr hne
    constructor
    · simp [aql, aqlLoop_eq, aqlStep, bindStep, initState, strictEq, isResource,
        resolveValue, AqlValue.queryStr, String.append_assoc, hb, h0, h1]
    · simp [aql, aqlLoop_eq, aqlStep, bindStep, initState, strictEq, isResource,
        resolveValue, AqlValue.bindVarsOf, hb, t0, t1]

/-- Witness for `bind_dedup` at concrete inputs, instantiating the
distinctness part with two `==`-distinct object instances. -/
theorem bind_dedup_witness :
    (BindValue.obj 0 ≠ BindValue.obj 1) ∧
    ((aql ["A", "B", "C"] [.bind (.obj 0), .bind (.obj 0)]).queryStr =
        "A" ++ "@value0" ++ "B" ++ "@value0" ++ "C" ∧
      (aql ["A", "B", "C"] [.bind (.obj 0), .bind (.obj 0)]).bindVarsOf =
        [("value0", AqlValue.bind (.obj 0))]) ∧
    ((aql ["A", "B", "C"] [.bind (.obj 0), .bind (.obj 1)]).queryStr =
        "A" ++ "@value0" ++ "B" ++ "@value1" ++ "C" ∧
      (aql ["A", "B", "C"] [.bind (.obj 0), .bind (.obj 1)]).bindVarsOf =
        [("value0", AqlValue.bind (.obj 0)), ("value1", AqlValue.bind (.obj 1))]) :=
  ⟨by decide,
   (bind_dedup "A" "B" "C" (.obj 0) (.obj 1)).1,
   (bind_dedup "A" "B" "C" (.obj 0) (.obj 1)).2 (by decide)⟩

/-- C7: zero-argument nesting transparency.  Interpolating a generated
query that captured zero arguments splices its finalized query string
directly between the surrounding fragments and contributes no bind
parameters; in particular the builder applied to fragments
`["A ", " B"]` with the query built from the single fragment `["X"]` as
sole argument produces `"A X B"` with no bind parameters. -/
theorem zero_arg_nesting (a b innerQuery : String)
    (bv : List (String × AqlValue)) (ss : List String) :
    ((aql [a, b] [.genQuery innerQuery bv ss []]).queryStr =
        a ++ innerQuery ++ b ∧
      (aql [a, b] [.genQuery innerQuery bv ss []]).bindVarsOf = []) ∧
    ((aql ["A ", " B"] [aql ["X"] []]).queryStr = "A X B" ∧
      (aql ["A ", " B"] [aql ["X"] []]).bindVarsOf = []) := by
  have hX : aql ["X"] [] = .genQuery "X" [] ["X"] [] := by
    simp [aql, aqlLoop_eq, initState, fragmentsOf, argListOf]
  refine ⟨⟨?_, ?_⟩, ?_, ?_⟩ <;> (try rw [hX]) <;>
    simp [aql, aqlLoop_eq, aqlStep, bindStep, initState, AqlValue.queryStr,
      AqlValue.bindVarsOf, String.append_assoc]

/-- C9: totality.  The builder (and the `join` helper) is a total
function: for every fragment list and every argument list the invocation
completes and returns a generated query value, constructing its result
without any other effect. -/
theorem aql_total (templateStrings : List String) (args : List AqlValue) :
    (∃ q bv ss as, aql templateStrings args = .genQuery q bv ss as) ∧
    (∀ (values : List AqlValue) (sep : String),
      ∃ q bv ss as, join values sep = .genQuery q bv ss as) := by
  constructor
  · exact ⟨_, _, _, _, rfl⟩
  · intro values sep
    match values with
    | [] => exact ⟨_, _, _, _, rfl⟩
    | [x] => exact ⟨_, _, _, _, rfl⟩
    | x :: y :: t => exact ⟨_, _, _, _, rfl⟩

/-- C6: `join` is sugar for one builder invocation: for every value list
and separator it produces the same query string and the same `bindVars`
mapping as the single invocation interpolating all the values in order
with the separator as the literal fragment between each adjacent pair;
`join [] sep` yields the empty query with no bindings, and `join [x] sep`
is exactly the invocation interpolating `x` alone. -/
theorem join_is_sugar (values : List AqlValue) (sep : String) :
    ((join values sep).queryStr =
        (aql ("" :: (List.replicate (values.length - 1) sep ++ [""]))
          values).queryStr ∧
      (join values sep).bindVarsOf =
        (aql ("" :: (List.replicate (values.length - 1) sep ++ [""]))
          values).bindVarsOf) ∧
    ((join [] sep).queryStr = "" ∧ (join [] sep).bindVarsOf = []) ∧
    (∀ x, join [x] sep = aql ["", ""] [x]) := by
  refine ⟨?_, ⟨?_, ?_⟩, fun x => rfl⟩
  · match values with
    | [] =>
      constructor <;>
        simp [join, aql, aqlLoop_eq, initState, AqlValue.queryStr,
          AqlValue.bindVarsOf]
    | [x] => exact ⟨rfl, rfl⟩
    | x :: y :: t => exact ⟨rfl, rfl⟩
  · simp [join, aql, aqlLoop_eq, initState, AqlValue.queryStr]
  · simp [join, aql, aqlLoop_eq, initState, AqlValue.bindVarsOf]

mutual

/-- Structural well-formedness of an interpolated value: the captured
source of every (transitively) nested generated query satisfies the
template-interpolation pairing `strings.length = args.length + 1`, as the
source of every builder-produced query does. -/
def wfValue : AqlValue → Bool
  | .genQuery _ _ ss as => (ss.length == as.length + 1) && wfArgs as
  | _ => true

/-- All values of an argument list are well-formed. -/
def wfArgs : List AqlValue → Bool
  | [] => true
  | a :: as => wfValue a && wfArgs as

end

theorem wfArgs_append (l₁ l₂ : List AqlValue) :
    wfArgs (l₁ ++ l₂) = (wfArgs l₁ && wfArgs l₂) := by
  induction l₁ with
  | nil => simp [wfArgs]
  | cons a as ih => simp [wfArgs, ih, Bool.and_assoc]

/-- The invariant of the working state of a builder invocation: the
processed fragments and processed arguments pair up one-to-one, the
remaining fragments and remaining arguments pair up one-to-one, and the
remaining arguments are well-formed. -/
def Invariant (s : BuilderState) : Prop :=
  s.doneStrings.length = s.doneArgs.length ∧
  s.restStrings.length = s.restArgs.length ∧
  wfArgs s.restArgs = true

theorem invariant_step (s : BuilderState) (h : Invariant s) :
    Invariant (aqlStep s) := by
  obtain ⟨h1, h2, h3⟩ := h
  match hr : s.restArgs with
  | [] =>
    refine ⟨by simp [aqlStep, bindStep, hr, h1], ?_, ?_⟩ <;> simp [aqlStep, bindStep, hr]
    · rw [hr] at h2; simpa using h2
    · simp [wfArgs]
  | raw :: rest =>
    rw [hr] at h2 h3
    simp only [wfArgs, Bool.and_eq_true] at h3
    obtain ⟨hwv, hwr⟩ := h3
    have hrestlen : s.restStrings.length = rest.length + 1 := by
      simpa using h2
    cases raw with
    | genQuery q bv ss as =>
      simp only [wfValue, Bool.and_eq_true, beq_iff_eq] at hwv
      obtain ⟨hss, hwas⟩ := hwv
      by_cases he : as.isEmpty
      · have : as = [] := by simpa [List.isEmpty_iff] using he
        subst this
        refine ⟨by simp [aqlStep, bindStep, hr, he, h1], ?_, ?_⟩
        · simp [aqlStep, bindStep, hr, he, List.length_tail, hrestlen]
        · simpa [aqlStep, bindStep, hr, he] using hwr
      · have haslen : 1 ≤ as.length := by
          cases as with
          | nil => simp at he
          | cons a t => simp
        refine ⟨by simp [aqlStep, bindStep, hr, he, h1], ?_, ?_⟩
        · simp [aqlStep, bindStep, hr, he, List.length_tail, hrestlen, hss]
          omega
        · simp [aqlStep, bindStep, hr, he, wfArgs_append, hwas, hwr]
    | resource i k n =>
      refine ⟨by simp [aqlStep, bindStep, hr, h1], ?_, ?_⟩
      · simp [aqlStep, bindStep, hr, List.length_tail, hrestlen]
      · simpa [aqlStep, bindStep, hr] using hwr
    | lit t =>
      refine ⟨by simp [aqlStep, bindStep, hr, h1], ?_, ?_⟩
      · simp [aqlStep, bindStep, hr, List.length_tail, hrestlen]
      · simpa [aqlStep, bindStep, hr] using hwr
    | undef =>
      refine ⟨by simp [aqlStep, bindStep, hr, h1], ?_, ?_⟩
      · simp [aqlStep, bindStep, hr, List.length_tail, hrestlen]
      · simpa [aqlStep, bindStep, hr] using hwr
    | bind v =>
      refine ⟨by simp [aqlStep, bindStep, hr, h1], ?_, ?_⟩
      · simp [aqlStep, bindStep, hr, List.length_tail, hrestlen]
      · simpa [aqlStep, bindStep, hr] using hwr

theorem invariant_loop (s : BuilderState) (h : Invariant s) :
    Invariant (aqlLoop s) := by
  induction s using aqlLoop.induct with
  | case1 s hnil => rwa [aqlLoop_eq, if_pos hnil]
  | case2 s hc ih => rw [aqlLoop_eq, if_neg hc]; exact ih (invariant_step s h)

theorem invariant_lengths (s : BuilderState) (h : Invariant s) :
    (fragmentsOf s).length = (argListOf s).length + 1 := by
  obtain ⟨h1, h2, _⟩ := h
  simp [fragmentsOf, argListOf, h1, h2]
  omega

theorem invariant_init (ts : List String) (args : List AqlValue)
    (hlen : ts.length = args.length + 1) (hwf : wfArgs args = true) :
    Invariant (initState ts args) := by
  refine ⟨rfl, ?_, hwf⟩
  cases ts with
  | nil => simp at hlen
  | cons t ts2 => simpa [initState] using by simpa using hlen

/-- C5: working-state invariant.  For every builder invocation the
internal working arrays satisfy `fragments.length = args.length + 1` at
every step of the walk: the invariant holds for the initial state of every
(well-formed) tag invocation and is preserved by every single step of the
loop, including both nested-query splices. -/
theorem working_state_invariant :
    (∀ (templateStrings : List String) (args : List AqlValue),
      templateStrings.length = args.length + 1 → wfArgs args = true →
      Invariant (initState templateStrings args)) ∧
    (∀ s : BuilderState, Invariant s → Invariant (aqlStep s)) ∧
    (∀ s : BuilderState, Invariant s →
      (fragmentsOf s).length = (argListOf s).length + 1) :=
  ⟨invariant_init, invariant_step, invariant_lengths⟩

/-- Witness for `working_state_invariant` at a concrete invocation with a
nested generated query argument, checking the invariant through the splice
step. -/
theorem working_state_invariant_witness :
    (["FOR x IN ", " RETURN x"].length =
        [AqlValue.genQuery "Q" [] ["p ", ""] [.bind (.num 2)]].length + 1 ∧
      wfArgs [AqlValue.genQuery "Q" [] ["p ", ""] [.bind (.num 2)]] = true) ∧
    Invariant (initState ["FOR x IN ", " RETURN x"]
      [AqlValue.genQuery "Q" [] ["p ", ""] [.bind (.num 2)]]) ∧
    Invariant (aqlStep (initState ["FOR x IN ", " RETURN x"]
      [AqlValue.genQuery "Q" [] ["p ", ""] [.bind (.num 2)]])) ∧
    (fragmentsOf (initState ["FOR x IN ", " RETURN x"]
        [AqlValue.genQuery "Q" [] ["p ", ""] [.bind (.num 2)]])).length =
      (argListOf (initState ["FOR x IN ", " RETURN x"]
        [AqlValue.genQuery "Q" [] ["p ", ""] [.bind (.num 2)]])).length + 1 := by
  have hinv := working_state_invariant.1 ["FOR x IN ", " RETURN x"]
    [AqlValue.genQuery "Q" [] ["p ", ""] [.bind (.num 2)]]
    (by simp) (by simp [wfArgs, wfValue])
  exact ⟨⟨by simp, by simp [wfArgs, wfValue]⟩, hinv,
    working_state_invariant.2.1 _ hinv,
    working_state_invariant.2.2 _ hinv⟩

/-- Pairwise strict-distinctness of the recorded bound values is preserved
by one step of the builder loop: a value is only recorded when the
strict-equality scan over the previously recorded values fails. -/
theorem bindValues_pairwise_step (s : BuilderState)
    (h : List.Pairwise (fun a b => strictEq a b = false) s.bindValues) :
    List.Pairwise (fun a b => strictEq a b = false) (aqlStep s).bindValues := by
  match hr : s.restArgs with
  | [] => simpa [aqlStep, bindStep, hr] using h
  | raw :: rest =>
    have key : ∀ v : AqlValue,
        List.Pairwise (fun a b => strictEq a b = false)
          (if (s.bindValues.findIdx? (fun b => strictEq b v)).isSome then
            s.bindValues
          else s.bindValues ++ [v]) := by
      intro v
      by_cases hi : (s.bindValues.findIdx? (fun b => strictEq b v)).isSome
      · simpa [hi] using h
      · rw [if_neg hi]
        have hnone : s.bindValues.findIdx? (fun b => strictEq b v) = none :=
          Option.not_isSome_iff_eq_none.mp hi
        rw [List.findIdx?_eq_none_iff] at hnone
        refine List.pairwise_append.mpr ⟨h, List.pairwise_singleton _ _, ?_⟩
        intro a ha b hb
        simp only [List.mem_singleton] at hb
        subst hb
        exact hnone a ha
    cases raw with
    | genQuery q bv ss as =>
      by_cases he : as.isEmpty <;> simpa [aqlStep, bindStep, hr, he] using h
    | resource i k n => simpa [aqlStep, bindStep, hr] using key (.resource i k n)
    | lit t => simpa [aqlStep, bindStep, hr] using h
    | undef => simpa [aqlStep, bindStep, hr] using h
    | bind v => simpa [aqlStep, bindStep, hr] using key (.bind v)

theorem bindValues_pairwise_loop (s : BuilderState)
    (h : List.Pairwise (fun a b => strictEq a b = false) s.bindValues) :
    List.Pairwise (fun a b => strictEq a b = false) (aqlLoop s).bindValues := by
  induction s using aqlLoop.induct with
  | case1 s hnil => rwa [aqlLoop_eq, if_pos hnil]
  | case2 s hc ih =>
    rw [aqlLoop_eq, if_neg hc]
    exact ih (bindValues_pairwise_step s h)

/-- C3: placeholder syntax and resource binding.  At any point of any
builder invocation, binding a named resource reference produces the
placeholder token `@@value<N>` in the query string and the `bindVars`
entry `@value<N> ↦` the resource's name string (not the reference
object), while binding any other value produces the placeholder
`@value<N>` and the entry `value<N> ↦` the raw value; `<N>` is the index
of the first strictly-equal previously recorded value if one exists and
the next sequential index (the count of previously recorded values)
otherwise, and the values recorded over a whole invocation are pairwise
strictly distinct, so `<N>` is the 0-based first-appearance index among
distinct bound values. -/
theorem placeholder_syntax :
    (∀ (s : BuilderState) (id : Nat) (k : ResKind) (nm : String)
        (rest : List AqlValue),
      s.restArgs = .resource id k nm :: rest →
      s.bindValues.findIdx? (fun b => strictEq b (.resource id k nm)) = none →
      (aqlStep s).query =
          s.query ++
            ("@@value" ++ toString s.bindValues.length ++
              s.restStrings.headD "") ∧
        (aqlStep s).bindVars =
          s.bindVars ++
            [("@value" ++ toString s.bindValues.length,
              AqlValue.bind (.str nm))]) ∧
    (∀ (s : BuilderState) (id : Nat) (k : ResKind) (nm : String)
        (rest : List AqlValue) (j : Nat),
      s.restArgs = .resource id k nm :: rest →
      s.bindValues.findIdx? (fun b => strictEq b (.resource id k nm)) =
        some j →
      (aqlStep s).query =
          s.query ++ ("@@value" ++ toString j ++ s.restStrings.headD "") ∧
        (aqlStep s).bindVars = s.bindVars) ∧
    (∀ (s : BuilderState) (v : BindValue) (rest : List AqlValue),
      s.restArgs = .bind v :: rest →
      s.bindValues.findIdx? (fun b => strictEq b (.bind v)) = none →
      (aqlStep s).query =
          s.query ++
            ("@value" ++ toString s.bindValues.length ++
              s.restStrings.headD "") ∧
        (aqlStep s).bindVars =
          s.bindVars ++
            [("value" ++ toString s.bindValues.length, AqlValue.bind v)]) ∧
    (∀ (s : BuilderState) (v : BindValue) (rest : List AqlValue) (j : Nat),
      s.restArgs = .bind v :: rest →
      s.bindValues.findIdx? (fun b => strictEq b (.bind v)) = some j →
      (aqlStep s).query =
          s.query ++ ("@value" ++ toString j ++ s.restStrings.headD "") ∧
        (aqlStep s).bindVars = s.bindVars) ∧
    (∀ (templateStrings : List String) (args : List AqlValue),
      List.Pairwise (fun a b => strictEq a b = false)
        ((aqlLoop (initState templateStrings args)).bindValues)) := by
  have hres : ∀ X : String, "@" ++ ("@" ++ ("value" ++ X)) = "@@value" ++ X :=
    fun X => rfl
  have hval : ∀ X : String, "@" ++ ("value" ++ X) = "@value" ++ X :=
    fun X => rfl
  have hres2 : ∀ X : String, "@" ++ ("@value" ++ X) = "@@value" ++ X :=
    fun X => rfl
  refine ⟨?_, ?_, ?_, ?_, ?_⟩
  · intro s id k nm rest hr hidx
    constructor <;>
      simp [aqlStep, bindStep, hr, hidx, isResource, resolveValue, hres, hval, hres2,
        String.append_assoc]
  · intro s id k nm rest j hr hidx
    constructor <;>
      simp [aqlStep, bindStep, hr, hidx, isResource, resolveValue, hres, hval, hres2,
        String.append_assoc]
  · intro s v rest hr hidx
    constructor <;>
      simp [aqlStep, bindStep, hr, hidx, isResource, resolveValue, hval,
        String.append_assoc]
  · intro s v rest j hr hidx
    constructor <;>
      simp [aqlStep, bindStep, hr, hidx, isResource, resolveValue, hval,
        String.append_assoc]
  · intro ts args
    exact bindValues_pairwise_loop _ (by simp [initState])

/-- Witness for `placeholder_syntax` at concrete states: a fresh resource
binding, a repeated resource binding, a fresh scalar binding and a
repeated scalar binding. -/
theorem placeholder_syntax_witness :
    ((aqlStep (initState ["FOR d IN ", ""] [.resource 7 .collection "users"])).query =
        "FOR d IN " ++
          ("@@value" ++ toString (0 : Nat) ++ "") ∧
      (aqlStep (initState ["FOR d IN ", ""] [.resource 7 .collection "users"])).bindVars =
        [] ++ [("@value" ++ toString (0 : Nat), AqlValue.bind (.str "users"))]) ∧
    ((aqlStep { initState ["x", "y"] [.resource 7 .collection "users"] with
        bindValues := [.resource 7 .graph "g"] }).query =
        "x" ++ ("@@value" ++ toString (0 : Nat) ++ "y") ∧
      (aqlStep { initState ["x", "y"] [.resource 7 .collection "users"] with
        bindValues := [.resource 7 .graph "g"] }).bindVars = []) ∧
    ((aqlStep (initState ["x", "y"] [.bind (.num 5)])).query =
        "x" ++ ("@value" ++ toString (0 : Nat) ++ "y") ∧
      (aqlStep (initState ["x", "y"] [.bind (.num 5)])).bindVars =
        [] ++ [("value" ++ toString (0 : Nat), AqlValue.bind (.num 5))]) ∧
    ((aqlStep { initState ["x", "y"] [.bind (.num 5)] with
        bindValues := [.bind (.num 5)] }).query =
        "x" ++ ("@value" ++ toString (0 : Nat) ++ "y") ∧
      (aqlStep { initState ["x", "y"] [.bind (.num 5)] with
        bindValues := [.bind (.num 5)] }).bindVars = []) := by
  refine ⟨?_, ?_, ?_, ?_⟩
  · exact placeholder_syntax.1 _ 7 .collection "users" [] rfl rfl
  · exact placeholder_syntax.2.1 _ 7 .collection "users" [] 0 rfl
      (by simp [strictEq])
  · exact placeholder_syntax.2.2.1 _ (.num 5) [] rfl rfl
  · exact placeholder_syntax.2.2.2.1 _ (.num 5) [] 0 rfl (by simp [strictEq])

/-- The replay property of a working state: the final working arrays
beyond the already-processed prefix re-run — from the same accumulators —
to the same final state.  `p` is the part of the accumulated query that
precedes the current fragment. -/
def ReplayProp (s : BuilderState) : Prop :=
  ∀ p : String, s.query = p ++ s.curString →
  ∃ (c2 : String) (rs2 : List String) (as2 : List AqlValue),
    fragmentsOf (aqlLoop s) = s.doneStrings.reverse ++ c2 :: rs2 ∧
    argListOf (aqlLoop s) = s.doneArgs.reverse ++ as2 ∧
    aqlLoop { s with query := p ++ c2, curString := c2,
                     restStrings := rs2, restArgs := as2 } = aqlLoop s

/-- Replay transfer across one non-splicing step of the loop: a step that
appends `y` plus the next fragment to the query, moves the current
fragment and the processed argument to the done lists, and replaces the
binding accumulators, preserves the replay property (the step re-runs
identically when the upcoming fragment is replaced by the corresponding
final fragment). -/
theorem replay_push (s : BuilderState) (y : String) (w : AqlValue)
    (nbvals : List AqlValue) (nbv : List (String × AqlValue))
    (hstep : aqlStep s =
      { s with query := s.query ++ (y ++ s.restStrings.headD ""),
               doneStrings := s.curString :: s.doneStrings,
               curString := s.restStrings.headD "",
               restStrings := s.restStrings.tail,
               doneArgs := w :: s.doneArgs,
               restArgs := s.restArgs.tail,
               bindValues := nbvals, bindVars := nbv })
    (hstepR : ∀ (c2 : String) (rs2 : List String) (as2 : List AqlValue),
      aqlStep { s with restStrings := c2 :: rs2, restArgs := w :: as2 } =
        { s with query := s.query ++ (y ++ c2),
                 doneStrings := s.curString :: s.doneStrings,
                 curString := c2,
                 restStrings := rs2,
                 doneArgs := w :: s.doneArgs,
                 restArgs := as2,
                 bindValues := nbvals, bindVars := nbv })
    (hloop : aqlLoop s = aqlLoop (aqlStep s))
    (ih : ReplayProp (aqlStep s)) : ReplayProp s := by
  intro p hq
  obtain ⟨c2, rs2, as2, h1, h2, h3⟩ := ih (s.query ++ y)
    (by rw [hstep]; simp [String.append_assoc])
  refine ⟨s.curString, c2 :: rs2, w :: as2, ?_, ?_, ?_⟩
  · rw [hloop, hstep]
    rw [hstep] at h1
    simpa using h1
  · rw [hloop, hstep]
    rw [hstep] at h2
    simpa using h2
  · rw [← hq]
    rw [aqlLoop_eq, if_neg (by simp)]
    rw [hstepR c2 rs2 as2]
    rw [hloop, hstep]
    rw [hstep] at h3
    rw [String.append_assoc] at h3
    exact h3

/-- Replay lemma: every builder state has the replay property; in
particular the loop's own final flattened output arrays replay to the
identical result.  The nested-query splices are transparent to replay
because the loop flattens them into the final arrays. -/
theorem loop_replay (s : BuilderState) : ReplayProp s := by
  induction s using aqlLoop.induct with
  | case1 s hnil =>
    intro p hq
    refine ⟨s.curString, s.restStrings, s.restArgs, ?_, ?_, ?_⟩
    · rw [aqlLoop_eq, if_pos hnil]; rfl
    · rw [aqlLoop_eq, if_pos hnil]; rfl
    · rw [← hq]
  | case2 s hc ih =>
    have hloop : aqlLoop s = aqlLoop (aqlStep s) := by
      rw [aqlLoop_eq, if_neg hc]
    obtain ⟨raw, rest, hr⟩ : ∃ a t, s.restArgs = a :: t := by
      cases h : s.restArgs with
      | nil => rw [h] at hc; simp at hc
      | cons a t => exact ⟨a, t, rfl⟩
    cases raw with
    | genQuery q bv ss as =>
      by_cases he : as.isEmpty
      · have hstep : aqlStep s =
            { s with query := s.query ++ (q ++ s.restStrings.headD ""),
                     curString := s.curString ++ (q ++ s.restStrings.headD ""),
                     restStrings := s.restStrings.tail,
                     restArgs := rest } := by
          simp [aqlStep, hr, he]
        intro p hq
        obtain ⟨c2, rs2, as2, h1, h2, h3⟩ := ih p
          (by rw [hstep]; simp [hq, String.append_assoc])
        refine ⟨c2, rs2, as2, ?_, ?_, ?_⟩
        · rw [hloop, hstep]
          rw [hstep] at h1
          simpa using h1
        · rw [hloop, hstep]
          rw [hstep] at h2
          simpa using h2
        · rw [hloop, hstep]
          rw [hstep] at h3
          exact h3
      · have hstep : aqlStep s =
            { s with query := s.query ++ ss.headD "",
                     curString := s.curString ++ ss.headD "",
                     restStrings :=
                       (ss.drop 1).take (as.length - 1) ++
                         (ss.getD as.length "" ++ s.restStrings.headD "") ::
                           s.restStrings.tail,
                     restArgs := as ++ rest } := by
          simp [aqlStep, hr, he]
        intro p hq
        obtain ⟨c2, rs2, as2, h1, h2, h3⟩ := ih p
          (by rw [hstep]; simp [hq, String.append_assoc])
        refine ⟨c2, rs2, as2, ?_, ?_, ?_⟩
        · rw [hloop, hstep]
          rw [hstep] at h1
          simpa using h1
        · rw [hloop, hstep]
          rw [hstep] at h2
          simpa using h2
        · rw [hloop, hstep]
          rw [hstep] at h3
          exact h3
    | undef =>
      refine replay_push s "" AqlValue.undef s.bindValues s.bindVars ?_ ?_
        hloop ih
      · simp [aqlStep, hr]
      · intro c2 rs2 as2
        simp [aqlStep]
    | lit t =>
      refine replay_push s t (AqlValue.lit t) s.bindValues s.bindVars ?_ ?_
        hloop ih
      · simp [aqlStep, hr]
      · intro c2 rs2 as2
        simp [aqlStep]
    | resource i k nm =>
      refine replay_push s
        ("@" ++ (if isResource (AqlValue.resource i k nm) then
            "@" ++ ("value" ++ toString
              (((s.bindValues.findIdx?
                (fun b => strictEq b (AqlValue.resource i k nm))).getD
                  s.bindValues.length)))
          else
            "value" ++ toString
              (((s.bindValues.findIdx?
                (fun b => strictEq b (AqlValue.resource i k nm))).getD
                  s.bindValues.length))))
        (AqlValue.resource i k nm)
        (if (s.bindValues.findIdx?
            (fun b => strictEq b (AqlValue.resource i k nm))).isSome then
          s.bindValues
        else s.bindValues ++ [AqlValue.resource i k nm])
        (if (s.bindValues.findIdx?
            (fun b => strictEq b (AqlValue.resource i k nm))).isSome then
          s.bindVars
        else s.bindVars ++
          [((if isResource (AqlValue.resource i k nm) then
              "@" ++ ("value" ++ toString
                (((s.bindValues.findIdx?
                  (fun b => strictEq b (AqlValue.resource i k nm))).getD
                    s.bindValues.length)))
            else
              "value" ++ toString
                (((s.bindValues.findIdx?
                  (fun b => strictEq b (AqlValue.resource i k nm))).getD
                    s.bindValues.length))),
            resolveValue (AqlValue.resource i k nm))])
        ?_ ?_ hloop ih
      · simp [aqlStep, bindStep, hr, String.append_assoc]
      · intro c2 rs2 as2
        simp [aqlStep, bindStep, String.append_assoc]
    | bind v =>
      refine replay_push s
        ("@" ++ (if isResource (AqlValue.bind v) then
            "@" ++ ("value" ++ toString
              (((s.bindValues.findIdx?
                (fun b => strictEq b (AqlValue.bind v))).getD
                  s.bindValues.length)))
          else
            "value" ++ toString
              (((s.bindValues.findIdx?
                (fun b => strictEq b (AqlValue.bind v))).getD
                  s.bindValues.length))))
        (AqlValue.bind v)
        (if (s.bindValues.findIdx?
            (fun b => strictEq b (AqlValue.bind v))).isSome then
          s.bindValues
        else s.bindValues ++ [AqlValue.bind v])
        (if (s.bindValues.findIdx?
            (fun b => strictEq b (AqlValue.bind v))).isSome then
          s.bindVars
        else s.bindVars ++
          [((if isResource (AqlValue.bind v) then
              "@" ++ ("value" ++ toString
                (((s.bindValues.findIdx?
                  (fun b => strictEq b (AqlValue.bind v))).getD
                    s.bindValues.length)))
            else
              "value" ++ toString
                (((s.bindValues.findIdx?
                  (fun b => strictEq b (AqlValue.bind v))).getD
                    s.bindValues.length))),
            resolveValue (AqlValue.bind v))])
        ?_ ?_ hloop ih
      · simp [aqlStep, bindStep, hr, String.append_assoc]
      · intro c2 rs2 as2
        simp [aqlStep, bindStep, String.append_assoc]

theorem take_append_getD (L : List String) (n : Nat) (h : L.length = n + 1) :
    L.take n ++ [L.getD n ""] = L := by
  induction L generalizing n with
  | nil => simp at h
  | cons x T ihL =>
    cases n with
    | zero =>
      cases T with
      | nil => simp
      | cons y T2 => simp at h
    | succ m =>
      have hT : T.length = m + 1 := by simpa using h
      simp only [List.take_succ_cons, List.getD_cons_succ, List.cons_append,
        List.cons.injEq, true_and]
      exact ihL m hT

/-- The spliced remainder of a well-formed nested source rebuilds exactly
the source's tail (aql.ts:220-226 with the middle slice and the final
merged fragment). -/
theorem source_splice_eq (S : List String) (n : Nat) (h : S.length = n + 2) :
    (S.drop 1).take n ++ [S.getD (n + 1) ""] = S.tail := by
  cases S with
  | nil => simp at h
  | cons x T =>
    have hT : T.length = n + 1 := by simpa using h
    simpa [List.getD_cons_succ] using take_append_getD T n hT

/-- The builder can only create a binding while also retiring an argument
to the processed list: over any run of the loop, the growth of `bindVars`
is bounded by the growth of `doneArgs`. -/
theorem step_bindVars_le (s : BuilderState) :
    (aqlStep s).bindVars.length + s.doneArgs.length ≤
      s.bindVars.length + (aqlStep s).doneArgs.length := by
  match hr : s.restArgs with
  | [] => simp [aqlStep, hr]
  | raw :: rest =>
    cases raw with
    | genQuery q bv ss as =>
      by_cases he : as.isEmpty <;> simp [aqlStep, hr, he]
    | undef => simp [aqlStep, hr]
    | lit t => simp [aqlStep, hr]
    | resource i k nm =>
      simp only [aqlStep, bindStep, hr]
      split
      · simp
      · simp
        omega
    | bind v =>
      simp only [aqlStep, bindStep, hr]
      split
      · simp
      · simp
        omega

theorem loop_bindVars_le (s : BuilderState) :
    (aqlLoop s).bindVars.length + s.doneArgs.length ≤
      s.bindVars.length + (aqlLoop s).doneArgs.length := by
  induction s using aqlLoop.induct with
  | case1 s h => rw [aqlLoop_eq, if_pos h]
  | case2 s hc ih =>
    rw [aqlLoop_eq, if_neg hc]
    have hstep := step_bindVars_le s
    omega

/-- Self-replay: the builder applied to the source arrays captured by its
own output produces that same output. -/
theorem aql_self_replay (ts : List String) (args : List AqlValue) :
    aql (AqlValue.stringsOf (aql ts args)) (AqlValue.argsOf (aql ts args)) =
      aql ts args := by
  obtain ⟨c2, rs2, as2, h1, h2, h3⟩ :=
    loop_replay (initState ts args) "" (by simp [initState])
  have hS : AqlValue.stringsOf (aql ts args) = c2 :: rs2 := by
    simpa [aql, AqlValue.stringsOf, initState] using h1
  have hA : AqlValue.argsOf (aql ts args) = as2 := by
    simpa [aql, AqlValue.argsOf, initState] using h2
  have hF : aqlLoop (initState (c2 :: rs2) as2) =
      aqlLoop (initState ts args) := h3
  rw [hS, hA]
  simp only [aql]
  rw [hF]


/-- Key-shape invariant of the binding accumulators: there are as many
mapping entries as recorded values, and the `j`-th entry has key
`value<j>` — prefixed by the `@` sigil exactly when the `j`-th recorded
value is a resource reference — and stores the resolved `j`-th recorded
value. -/
def KeysShape (s : BuilderState) : Prop :=
  s.bindVars.length = s.bindValues.length ∧
  ∀ (j : Nat) (v : AqlValue), s.bindValues[j]? = some v →
    s.bindVars[j]? =
      some ((if isResource v then "@" ++ ("value" ++ toString j)
             else "value" ++ toString j), resolveValue v)

theorem keysShape_bindStep (s : BuilderState) (v : AqlValue)
    (h : KeysShape s) : KeysShape (bindStep v s) := by
  obtain ⟨hlen, hkey⟩ := h
  by_cases hi : (s.bindValues.findIdx? (fun b => strictEq b v)).isSome
  · have e1 : (bindStep v s).bindValues = s.bindValues := by
      simp [bindStep, hi]
    have e2 : (bindStep v s).bindVars = s.bindVars := by
      simp [bindStep, hi]
    exact ⟨by rw [e1, e2]; exact hlen, by rw [e1, e2]; exact hkey⟩
  · have hnone : s.bindValues.findIdx? (fun b => strictEq b v) = none :=
      Option.not_isSome_iff_eq_none.mp hi
    have e1 : (bindStep v s).bindValues = s.bindValues ++ [v] := by
      simp [bindStep, hi]
    have e2 : (bindStep v s).bindVars =
        s.bindVars ++
          [((if isResource v then
              "@" ++ ("value" ++ toString s.bindValues.length)
            else "value" ++ toString s.bindValues.length),
            resolveValue v)] := by
      simp [bindStep, hi, hnone]
    refine ⟨by rw [e1, e2]; simp [hlen], ?_⟩
    intro j w hw
    rw [e1] at hw
    rw [e2]
    rcases Nat.lt_or_ge j s.bindValues.length with hj | hj
    · rw [List.getElem?_append_left hj] at hw
      rw [List.getElem?_append_left (by rw [hlen]; exact hj)]
      exact hkey j w hw
    · rw [List.getElem?_append_right hj] at hw
      have hj0 : j - s.bindValues.length = 0 := by
        by_contra hne
        have : 1 ≤ j - s.bindValues.length := Nat.one_le_iff_ne_zero.mpr hne
        rw [List.getElem?_eq_none (by simpa using this)] at hw
        exact Option.noConfusion hw
      have hjj : j = s.bindValues.length := by omega
      rw [hj0] at hw
      simp only [List.getElem?_cons_zero, Option.some.injEq] at hw
      subst hw
      rw [List.getElem?_append_right (by rw [hlen]; exact hj)]
      rw [hlen, hj0]
      simp [hjj]

theorem keysShape_step (s : BuilderState) (h : KeysShape s) :
    KeysShape (aqlStep s) := by
  match hr : s.restArgs with
  | [] =>
    have e : aqlStep s = s := by simp [aqlStep, hr]
    rwa [e]
  | raw :: rest =>
    cases raw with
    | genQuery q bv ss as =>
      by_cases he : as.isEmpty
      · have e1 : (aqlStep s).bindValues = s.bindValues := by
          simp [aqlStep, hr, he]
        have e2 : (aqlStep s).bindVars = s.bindVars := by
          simp [aqlStep, hr, he]
        exact ⟨by rw [e1, e2]; exact h.1, by rw [e1, e2]; exact h.2⟩
      · have e1 : (aqlStep s).bindValues = s.bindValues := by
          simp [aqlStep, hr, he]
        have e2 : (aqlStep s).bindVars = s.bindVars := by
          simp [aqlStep, hr, he]
        exact ⟨by rw [e1, e2]; exact h.1, by rw [e1, e2]; exact h.2⟩
    | undef =>
      have e1 : (aqlStep s).bindValues = s.bindValues := by simp [aqlStep, hr]
      have e2 : (aqlStep s).bindVars = s.bindVars := by simp [aqlStep, hr]
      exact ⟨by rw [e1, e2]; exact h.1, by rw [e1, e2]; exact h.2⟩
    | lit t =>
      have e1 : (aqlStep s).bindValues = s.bindValues := by simp [aqlStep, hr]
      have e2 : (aqlStep s).bindVars = s.bindVars := by simp [aqlStep, hr]
      exact ⟨by rw [e1, e2]; exact h.1, by rw [e1, e2]; exact h.2⟩
    | resource i k nm =>
      have e : aqlStep s = bindStep (.resource i k nm) s := by
        simp [aqlStep, hr]
      rw [e]
      exact keysShape_bindStep s _ h
    | bind v =>
      have e : aqlStep s = bindStep (.bind v) s := by simp [aqlStep, hr]
      rw [e]
      exact keysShape_bindStep s _ h

theorem keysShape_loop (s : BuilderState) (h : KeysShape s) :
    KeysShape (aqlLoop s) := by
  induction s using aqlLoop.induct with
  | case1 s hnil => rwa [aqlLoop_eq, if_pos hnil]
  | case2 s hc ih =>
    rw [aqlLoop_eq, if_neg hc]
    exact ih (keysShape_step s h)

/-- Every key of a builder result is `value<j>` or `@value<j>` where `j`
is the 0-based position of the entry: bind-parameter indices of one
invocation are contiguous from 0. -/
theorem aql_keys_contiguous (ts : List String) (args : List AqlValue)
    (j : Nat) (kv : String × AqlValue)
    (hj : ((aql ts args).bindVarsOf)[j]? = some kv) :
    kv.1 = "value" ++ toString j ∨ kv.1 = "@" ++ ("value" ++ toString j) := by
  have hks : KeysShape (aqlLoop (initState ts args)) :=
    keysShape_loop _ ⟨rfl, by intro j v hv; simp [initState] at hv⟩
  obtain ⟨hlen, hkey⟩ := hks
  have hj2 : ((aqlLoop (initState ts args)).bindVars)[j]? = some kv := by
    simpa [aql, AqlValue.bindVarsOf] using hj
  have hjlt : j < (aqlLoop (initState ts args)).bindVars.length := by
    by_contra hge
    rw [List.getElem?_eq_none (by omega)] at hj2
    exact Option.noConfusion hj2
  cases hv0 : ((aqlLoop (initState ts args)).bindValues)[j]? with
  | none =>
    rw [List.getElem?_eq_none_iff] at hv0
    omega
  | some v =>
    have hk := hkey j v hv0
    rw [hj2] at hk
    have hkv := Option.some.inj hk
    by_cases hres : isResource v
    · right; rw [hkv]; simp [hres]
    · left; rw [hkv]; simp [hres]

theorem aql_source_length (ts : List String) (args : List AqlValue)
    (hlen : ts.length = args.length + 1) (hwf : wfArgs args = true) :
    (AqlValue.stringsOf (aql ts args)).length =
      (AqlValue.argsOf (aql ts args)).length + 1 := by
  have hinv := invariant_loop _ (invariant_init ts args hlen hwf)
  have hl := invariant_lengths _ hinv
  simpa [aql, AqlValue.stringsOf, AqlValue.argsOf] using hl

/-- C1: nesting round-trip losslessness.  Interpolating a builder-produced
query as the sole value of a new invocation with empty surrounding
fragments reproduces it entirely (same query string and same `bindVars`,
and even the same replay source); and the bind-parameter keys of any
invocation are indexed contiguously from 0 in first-appearance order
(`value<j>` or `@value<j>` at position `j`), shared across the whole
invocation rather than restarting for nested portions. -/
theorem nesting_roundtrip (ts : List String) (args : List AqlValue)
    (hlen : ts.length = args.length + 1) (hwf : wfArgs args = true) :
    aql ["", ""] [aql ts args] = aql ts args ∧
    (∀ (j : Nat) (kv : String × AqlValue),
      ((aql ts args).bindVarsOf)[j]? = some kv →
      kv.1 = "value" ++ toString j ∨
        kv.1 = "@" ++ ("value" ++ toString j)) := by
  refine ⟨?_, fun j kv h => aql_keys_contiguous ts args j kv h⟩
  obtain ⟨Q, BV, S, A, hq⟩ : ∃ Q BV S A, aql ts args = .genQuery Q BV S A :=
    ⟨_, _, _, _, rfl⟩
  have hSlen : S.length = A.length + 1 := by
    have hsl := aql_source_length ts args hlen hwf
    rw [hq] at hsl
    simpa [AqlValue.stringsOf, AqlValue.argsOf] using hsl
  have hreplay : aql S A = AqlValue.genQuery Q BV S A := by
    have hsr := aql_self_replay ts args
    rw [hq] at hsr
    simpa [AqlValue.stringsOf, AqlValue.argsOf] using hsr
  rw [hq]
  cases A with
  | nil =>
    obtain ⟨σ, hσ⟩ : ∃ x, S = [x] := by
      cases S with
      | nil => simp at hSlen
      | cons x T =>
        cases T with
        | nil => exact ⟨x, rfl⟩
        | cons y T2 => simp at hSlen
    subst hσ
    have hcomp : aql [σ] [] = AqlValue.genQuery σ [] [σ] [] := by
      simp [aql, aqlLoop_eq, initState, fragmentsOf, argListOf]
    rw [hcomp] at hreplay
    injection hreplay with h1 h2 h3 h4
    subst h1
    subst h2
    simp [aql, aqlLoop_eq, aqlStep, bindStep, initState, fragmentsOf,
      argListOf]
  | cons a A2 =>
    have hsplice := source_splice_eq S A2.length
      (by simp only [List.length_cons] at hSlen; omega)
    rw [List.drop_one, List.getD_eq_getElem?_getD] at hsplice
    have hstep :
        aqlStep (initState ["", ""] [AqlValue.genQuery Q BV S (a :: A2)]) =
          initState S (a :: A2) := by
      simp [aqlStep, initState, hsplice]
    have hF2 :
        aqlLoop (initState ["", ""] [AqlValue.genQuery Q BV S (a :: A2)]) =
          aqlLoop (initState S (a :: A2)) := by
      rw [aqlLoop_eq, if_neg (by simp [initState])]
      rw [hstep]
    simp only [aql]
    rw [hF2]
    simpa [aql] using hreplay

/-- Witness for `nesting_roundtrip` at a concrete invocation with one
bound value. -/
theorem nesting_roundtrip_witness :
    (["FOR u IN ", " RETURN u"].length =
        [AqlValue.bind (.str "x")].length + 1 ∧
      wfArgs [AqlValue.bind (.str "x")] = true) ∧
    aql ["", ""] [aql ["FOR u IN ", " RETURN u"] [.bind (.str "x")]] =
      aql ["FOR u IN ", " RETURN u"] [.bind (.str "x")] :=
  ⟨⟨by simp, by simp [wfArgs, wfValue]⟩,
    (nesting_roundtrip ["FOR u IN ", " RETURN u"] [.bind (.str "x")]
      (by simp) (by simp [wfArgs, wfValue])).1⟩

/-! ### Decimal rendering

The bind-parameter names embed the decimal rendering of the parameter
index (`toString n` for the JS template `value${n}`).  `natDigits` is the
structural decimal digit list, proven equal to `(toString n).data`, and
the facts needed about it: digits are digit characters, and a rendering
that is a prefix of another denotes a smaller or equal number. -/

/-- The decimal digit characters of a natural number, most significant
first. -/
def natDigits (n : Nat) : List Char :=
  if n < 10 then [Nat.digitChar n]
  else natDigits (n / 10) ++ [Nat.digitChar (n % 10)]
termination_by n
decreasing_by exact Nat.div_lt_self (by omega) (by omega)

theorem toDigitsCore_eq (fuel : Nat) : ∀ (n : Nat) (ds : List Char),
    n < fuel → Nat.toDigitsCore 10 fuel n ds = natDigits n ++ ds := by
  induction fuel with
  | zero => intro n ds h; omega
  | succ f ih =>
    intro n ds h
    rw [Nat.toDigitsCore]
    by_cases h10 : n / 10 = 0
    · rw [if_pos h10]
      rw [natDigits, if_pos (by omega)]
      rw [Nat.mod_eq_of_lt (by omega)]
      rfl
    · rw [if_neg h10]
      have hlt : n / 10 < n := Nat.div_lt_self (by omega) (by omega)
      have hnd : natDigits n =
          natDigits (n / 10) ++ [Nat.digitChar (n % 10)] := by
        rw [natDigits]
        rw [if_neg (by omega)]
      rw [ih (n / 10) _ (by omega), hnd]
      simp

theorem toString_data_eq (n : Nat) : (toString n).data = natDigits n := by
  show (Nat.repr n).data = natDigits n
  rw [Nat.repr, Nat.toDigits, toDigitsCore_eq (n + 1) n [] (by omega)]
  simp [List.asString]

theorem digitChar_isDigit (k : Nat) (h : k < 10) :
    (Nat.digitChar k).isDigit = true := by
  interval_cases k <;> decide

theorem digitChar_injective (k j : Nat) (hk : k < 10) (hj : j < 10)
    (h : Nat.digitChar k = Nat.digitChar j) : k = j := by
  interval_cases k <;> interval_cases j <;> first | rfl | exact absurd h (by decide)

theorem natDigits_ne_nil (n : Nat) : natDigits n ≠ [] := by
  rw [natDigits]
  split <;> simp

theorem natDigits_isDigit (n : Nat) :
    ∀ c ∈ natDigits n, c.isDigit = true := by
  induction n using natDigits.induct with
  | case1 n h =>
    rw [natDigits, if_pos h]
    intro c hc
    simp only [List.mem_singleton] at hc
    subst hc
    exact digitChar_isDigit n h
  | case2 n h ih =>
    rw [natDigits, if_neg h]
    intro c hc
    rcases List.mem_append.mp hc with hc2 | hc2
    · exact ih c hc2
    · simp only [List.mem_singleton] at hc2
      subst hc2
      exact digitChar_isDigit _ (Nat.mod_lt _ (by omega))

theorem natDigits_lt_pow (n : Nat) : n < 10 ^ (natDigits n).length := by
  induction n using natDigits.induct with
  | case1 n h =>
    rw [natDigits, if_pos h]
    simpa using h
  | case2 n h ih =>
    rw [natDigits, if_neg h]
    simp only [List.length_append, List.length_singleton]
    have h1 : n < 10 * (n / 10) + 10 := by omega
    calc n < 10 * (n / 10) + 10 := h1
      _ ≤ 10 * 10 ^ (natDigits (n / 10)).length := by
          have := ih
          omega
      _ = 10 ^ ((natDigits (n / 10)).length + 1) := by ring

theorem pow_le_natDigits (n : Nat) (h : 2 ≤ (natDigits n).length) :
    10 ^ ((natDigits n).length - 1) ≤ n := by
  induction n using natDigits.induct with
  | case1 n h10 =>
    rw [natDigits, if_pos h10] at h
    simp at h
  | case2 n h10 ih =>
    rw [natDigits, if_neg h10]
    simp only [List.length_append, List.length_singleton]
    by_cases h2 : 2 ≤ (natDigits (n / 10)).length
    · have hx := ih h2
      have hdiv : 10 * (n / 10) ≤ n := by omega
      have hsucc : 10 ^ (natDigits (n / 10)).length =
          10 * 10 ^ ((natDigits (n / 10)).length - 1) := by
        nth_rewrite 1 [show (natDigits (n / 10)).length =
          ((natDigits (n / 10)).length - 1) + 1 by omega]
        rw [pow_succ]
        ring
      rw [Nat.add_sub_cancel, hsucc]
      omega
    · have h1 : (natDigits (n / 10)).length = 1 := by
        have := natDigits_ne_nil (n / 10)
        have hlen : 1 ≤ (natDigits (n / 10)).length := by
          cases hh : natDigits (n / 10) with
          | nil => exact absurd hh this
          | cons x T => simp
        omega
      rw [h1]
      simpa using by omega

theorem natDigits_injective (m n : Nat) (h : natDigits m = natDigits n) :
    m = n := by
  induction m using natDigits.induct generalizing n with
  | case1 m hm =>
    rw [natDigits, if_pos hm] at h
    by_cases hn : n < 10
    · have hnEq : natDigits n = [Nat.digitChar n] := by
        rw [natDigits, if_pos hn]
      rw [hnEq] at h
      simp only [List.cons.injEq, and_true] at h
      exact digitChar_injective m n hm hn h
    · have hnEq : natDigits n =
          natDigits (n / 10) ++ [Nat.digitChar (n % 10)] := by
        rw [natDigits, if_neg hn]
      rw [hnEq] at h
      have := natDigits_ne_nil (n / 10)
      cases hh : natDigits (n / 10) with
      | nil => exact absurd hh this
      | cons x T =>
        rw [hh] at h
        simp at h
  | case2 m hm ih =>
    rw [natDigits, if_neg hm] at h
    by_cases hn : n < 10
    · have hnEq : natDigits n = [Nat.digitChar n] := by
        rw [natDigits, if_pos hn]
      rw [hnEq] at h
      have := natDigits_ne_nil (m / 10)
      cases hh : natDigits (m / 10) with
      | nil => exact absurd hh this
      | cons x T =>
        rw [hh] at h
        simp at h
    · have hnEq : natDigits n =
          natDigits (n / 10) ++ [Nat.digitChar (n % 10)] := by
        rw [natDigits, if_neg hn]
      rw [hnEq] at h
      obtain ⟨h1, h2⟩ := List.append_inj' h (by simp)
      simp only [List.cons.injEq, and_true] at h2
      have hmod : m % 10 = n % 10 :=
        digitChar_injective _ _ (Nat.mod_lt _ (by omega))
          (Nat.mod_lt _ (by omega)) h2
      have hdiv : m / 10 = n / 10 := ih (n / 10) h1
      omega

theorem natDigits_prefix_le (m n : Nat)
    (h : natDigits m <+: natDigits n) : m ≤ n := by
  by_cases heq : (natDigits m).length = (natDigits n).length
  · have := h.eq_of_length heq
    exact Nat.le_of_eq (natDigits_injective m n this)
  · have hlt : (natDigits m).length < (natDigits n).length := by
      have := h.length_le
      omega
    have hm1 : 1 ≤ (natDigits m).length := by
      have := natDigits_ne_nil m
      cases hh : natDigits m with
      | nil => exact absurd hh this
      | cons x T => simp
    have h2 : 2 ≤ (natDigits n).length := by omega
    have hb := pow_le_natDigits n h2
    have ha := natDigits_lt_pow m
    have hpow : (10 : Nat) ^ (natDigits m).length ≤
        10 ^ ((natDigits n).length - 1) :=
      Nat.pow_le_pow_right (by omega) (by omega)
    omega

/-! ### Query-string shape analysis

For the query/`bindVars` correspondence, the query string under
construction is analysed as clean literal fragments interleaved with
emitted placeholder tokens. -/

/-- `l` contains no `@` character. -/
def noAt (l : List Char) : Bool := l.all (fun c => !(c == '@'))

/-- `l` does not start with a decimal digit. -/
def notDigitLead (l : List Char) : Bool :=
  match l with
  | [] => true
  | c :: _ => !c.isDigit

/-- A clean query fragment: no `@` anywhere and no leading digit, so it
can neither contain a placeholder-shaped token nor extend the decimal
index of a preceding placeholder. -/
def cleanFrag (t : String) : Bool := noAt t.data && notDigitLead t.data

mutual

/-- Cleanliness of an interpolated value: literal texts are clean, and
the fragments of nested generated queries (for an argument-free nested
query, its finalized query text) are clean, recursively. -/
def cleanVal : AqlValue → Bool
  | .genQuery gq _ qs qa =>
      (!qa.isEmpty || cleanFrag gq) && qs.all cleanFrag && cleanArgs qa
  | .lit t => cleanFrag t
  | _ => true

/-- All values of an argument list are clean. -/
def cleanArgs : List AqlValue → Bool
  | [] => true
  | a :: as => cleanVal a && cleanArgs as

end

theorem cleanArgs_append (l₁ l₂ : List AqlValue) :
    cleanArgs (l₁ ++ l₂) = (cleanArgs l₁ && cleanArgs l₂) := by
  induction l₁ with
  | nil => simp [cleanArgs]
  | cons a as ih => simp [cleanArgs, ih, Bool.and_assoc]

theorem noAt_append (a b : List Char) :
    noAt (a ++ b) = (noAt a && noAt b) := by
  simp [noAt]

theorem notDigitLead_append (a b : List Char)
    (ha : notDigitLead a = true) (hb : notDigitLead b = true) :
    notDigitLead (a ++ b) = true := by
  cases a with
  | nil => simpa using hb
  | cons c t => simpa [notDigitLead] using ha

/-- The characters of a placeholder token after its `@` sigils: `value`
followed by the decimal index. -/
def valueTok (n : Nat) : List Char :=
  'v' :: 'a' :: 'l' :: 'u' :: 'e' :: natDigits n

/-- The characters of an emitted placeholder token: `@value<n>` for a
plain bind and `@@value<n>` for a resource bind. -/
def tokChars (res : Bool) (n : Nat) : List Char :=
  if res then '@' :: '@' :: valueTok n else '@' :: valueTok n

theorem token_data_eq (n : Nat) :
    ("@value" ++ toString n).data = tokChars false n := by
  rw [String.data_append]
  rw [show ("@value".data) = ['@', 'v', 'a', 'l', 'u', 'e'] from rfl]
  rw [toString_data_eq]
  rfl

theorem noAt_valueTok (j : Nat) : noAt (valueTok j) = true := by
  simp only [noAt, valueTok, List.all_cons, Bool.and_eq_true,
    List.all_eq_true]
  refine ⟨by decide, by decide, by decide, by decide, by decide, ?_⟩
  intro c hc
  have hd := natDigits_isDigit j c hc
  by_contra hne
  have hc2 : c = '@' := by simpa using hne
  subst hc2
  simp at hd

theorem notDigitLead_tok (res : Bool) (n : Nat) :
    notDigitLead (tokChars res n) = true := by
  cases res <;> simp [tokChars, valueTok, notDigitLead]

/-- Shape of a query string under construction with `m` recorded bind
parameters: clean fragments interleaved with placeholder tokens of index
below `m`, where the text following each token does not begin with a
digit. -/
inductive Shaped (m : Nat) : List Char → Prop where
  | frag (c : List Char) (hc : noAt c = true) : Shaped m c
  | tok (c : List Char) (res : Bool) (j : Nat) (rest : List Char)
      (hc : noAt c = true) (hj : j < m)
      (hd : notDigitLead rest = true) (hrest : Shaped m rest) :
      Shaped m (c ++ (tokChars res j ++ rest))

theorem shaped_append_frag (m : Nat) (l c : List Char) (hs : Shaped m l)
    (hc : noAt c = true) (hd : notDigitLead c = true) :
    Shaped m (l ++ c) := by
  induction hs with
  | frag c0 h0 =>
    exact .frag _ (by rw [noAt_append, h0, hc]; rfl)
  | tok c0 res j rest h0 hj hd0 hrest ih =>
    rw [List.append_assoc, List.append_assoc]
    exact .tok _ _ _ _ h0 hj (notDigitLead_append rest c hd0 hd) ih

theorem shaped_append_tok (m mf : Nat) (hmm : m ≤ mf) (l : List Char)
    (hs : Shaped m l) (res : Bool) (j : Nat) (hj : j < mf)
    (c : List Char) (hc : noAt c = true) (hd : notDigitLead c = true) :
    Shaped mf (l ++ (tokChars res j ++ c)) := by
  induction hs with
  | frag c0 h0 =>
    exact .tok c0 res j c h0 hj hd (.frag c hc)
  | tok c0 res0 j0 rest h0 hj0 hd0 hrest ih =>
    rw [List.append_assoc, List.append_assoc]
    refine .tok _ _ _ _ h0 (by omega) ?_ ih
    exact notDigitLead_append rest _ hd0
      (notDigitLead_append _ c (notDigitLead_tok res j) hd)

/-- An occurrence of a token starting with `@` inside `c ++ X` with `c`
free of `@` must lie entirely inside `X`. -/
theorem atTok_infix_of_append (c : List Char) (X : List Char)
    (hc : noAt c = true) (tk : List Char)
    (h : ('@' :: tk) <:+: c ++ X) : ('@' :: tk) <:+: X := by
  induction c with
  | nil => simpa using h
  | cons d c ih =>
    simp only [noAt, List.all_cons, Bool.and_eq_true] at hc
    obtain ⟨hd, hc2⟩ := hc
    rcases List.infix_cons_iff.mp h with hpre | hinf
    · obtain ⟨t2, ht2⟩ := hpre
      simp only [List.cons_append] at ht2
      obtain ⟨h1, -⟩ := List.cons_eq_cons.mp ht2
      rw [← h1] at hd
      simp at hd
    · exact ih hc2 hinf

/-- An occurrence of the token `@value<n>` inside `@value<j>` followed by
text that does not start with a digit is either an occurrence aligned with
that token — forcing `n ≤ j` — or an occurrence inside the following
text. -/
theorem tok_at_tok (n j : Nat) (rest : List Char)
    (hd : notDigitLead rest = true)
    (h : ('@' :: valueTok n) <:+: ('@' :: valueTok j) ++ rest) :
    n ≤ j ∨ ('@' :: valueTok n) <:+: rest := by
  rcases List.infix_cons_iff.mp (by simpa using h) with hpre | hinf
  · obtain ⟨t2, ht2⟩ := hpre
    left
    simp only [List.cons_append] at ht2
    obtain ⟨-, htail⟩ := List.cons_eq_cons.mp ht2
    simp only [valueTok, List.cons_append] at htail
    obtain ⟨-, htail⟩ := List.cons_eq_cons.mp htail
    obtain ⟨-, htail⟩ := List.cons_eq_cons.mp htail
    obtain ⟨-, htail⟩ := List.cons_eq_cons.mp htail
    obtain ⟨-, htail⟩ := List.cons_eq_cons.mp htail
    obtain ⟨-, hdig⟩ := List.cons_eq_cons.mp htail
    rcases List.append_eq_append_iff.mp hdig with ⟨e, he1, -⟩ | ⟨e, he1, he2⟩
    · exact natDigits_prefix_le n j ⟨e, he1.symm⟩
    · cases e with
      | nil =>
        rw [List.append_nil] at he1
        exact Nat.le_of_eq (natDigits_injective n j he1)
      | cons x e2 =>
        exfalso
        have hx : x ∈ natDigits n := by
          rw [he1]
          exact List.mem_append_right _ (List.mem_cons_self x e2)
        have hxd := natDigits_isDigit n x hx
        rw [he2] at hd
        simp [notDigitLead, hxd] at hd
  · right
    exact atTok_infix_of_append (valueTok j) rest (noAt_valueTok j) _ hinf

/-- No spurious placeholder tokens: a query string shaped from clean
fragments and tokens of index below `m` contains the token `@value<n>`
only for `n < m`. -/
theorem shaped_no_spurious (m : Nat) (l : List Char) (hs : Shaped m l) :
    ∀ n : Nat, ('@' :: valueTok n) <:+: l → n < m := by
  induction hs with
  | frag c hc =>
    intro n h
    have h2 := atTok_infix_of_append c [] hc (valueTok n)
      (by simpa using h)
    simp at h2
  | tok c res j rest hc hj hd hrest ih =>
    intro n h
    have h2 : ('@' :: valueTok n) <:+: tokChars res j ++ rest :=
      atTok_infix_of_append c _ hc _ h
    cases res with
    | false =>
      rcases tok_at_tok n j rest hd (by simpa [tokChars] using h2) with
        hle | hres
      · omega
      · exact ih n hres
    | true =>
      rcases List.infix_cons_iff.mp (by simpa [tokChars] using h2) with
        hpre | hinf
      · exfalso
        obtain ⟨t2, ht2⟩ := hpre
        simp only [List.cons_append] at ht2
        obtain ⟨-, ht3⟩ := List.cons_eq_cons.mp ht2
        simp [valueTok] at ht3
      · rcases tok_at_tok n j rest hd (by simpa using hinf) with hle | hres
        · omega
        · exact ih n hres

theorem cleanFrag_parts (u : String) (h : cleanFrag u = true) :
    noAt u.data = true ∧ notDigitLead u.data = true := by
  simpa [cleanFrag, Bool.and_eq_true] using h

theorem cleanFrag_appendStr (a b : String) (ha : cleanFrag a = true)
    (hb : cleanFrag b = true) : cleanFrag (a ++ b) = true := by
  obtain ⟨ha1, ha2⟩ := cleanFrag_parts a ha
  obtain ⟨hb1, hb2⟩ := cleanFrag_parts b hb
  simp only [cleanFrag, String.data_append, Bool.and_eq_true]
  exact ⟨by rw [noAt_append, ha1, hb1]; rfl,
    notDigitLead_append _ _ ha2 hb2⟩

theorem shaped_append_fragStr (m : Nat) (t u : String)
    (hs : Shaped m t.data) (hu : cleanFrag u = true) :
    Shaped m (t ++ u).data := by
  obtain ⟨h1, h2⟩ := cleanFrag_parts u hu
  rw [String.data_append]
  exact shaped_append_frag m t.data u.data hs h1 h2

theorem infix_data_append (l : List Char) (q x : String)
    (h : l <:+: q.data) : l <:+: (q ++ x).data := by
  rw [String.data_append]
  exact h.trans (List.prefix_append q.data x.data).isInfix

theorem headD_clean (l : List String)
    (h : ∀ f ∈ l, cleanFrag f = true) : cleanFrag (l.headD "") = true := by
  cases l with
  | nil => decide
  | cons f t => exact h f (List.mem_cons_self f t)

/-- The placeholder text emitted by the bind branch, as characters: the
`@` marker, the optional resource sigil, `value`, the decimal index, and
the following fragment. -/
theorem bindTok_data (resb : Bool) (nIdx : Nat) (u : String) :
    ("@" ++ ((if resb then "@" ++ ("value" ++ toString nIdx)
              else "value" ++ toString nIdx) ++ u)).data =
      tokChars resb nIdx ++ u.data := by
  cases resb <;>
    simp [tokChars, valueTok, toString_data_eq, String.data_append]

/-- The invariant of the query/`bindVars` correspondence under clean
fragments: the query string is shaped from clean fragments and emitted
tokens of index below the number of recorded bindings, the remaining
fragments and arguments are clean, every recorded key's placeholder
occurs in the query string, and keys and recorded values are in
one-to-one correspondence. -/
def CleanState (s : BuilderState) : Prop :=
  Shaped s.bindVars.length s.query.data ∧
  (∀ f ∈ s.restStrings, cleanFrag f = true) ∧
  cleanArgs s.restArgs = true ∧
  (∀ kv ∈ s.bindVars, ("@" ++ kv.1).data <:+: s.query.data) ∧
  s.bindVars.length = s.bindValues.length

theorem cleanState_bindStep (s : BuilderState) (v : AqlValue)
    (rest : List AqlValue) (hr : s.restArgs = v :: rest)
    (hshape : Shaped s.bindVars.length s.query.data)
    (hfr : ∀ f ∈ s.restStrings, cleanFrag f = true)
    (hcr : cleanArgs rest = true)
    (hdir2 : ∀ kv ∈ s.bindVars, ("@" ++ kv.1).data <:+: s.query.data)
    (hlen : s.bindVars.length = s.bindValues.length) :
    CleanState (bindStep v s) := by
  have hhead := headD_clean _ hfr
  obtain ⟨hh1, hh2⟩ := cleanFrag_parts _ hhead
  have htail : ∀ f ∈ s.restStrings.tail, cleanFrag f = true :=
    fun f hf => hfr f (List.mem_of_mem_tail hf)
  have hct : cleanArgs s.restArgs.tail = true := by
    rw [hr]
    exact hcr
  by_cases hi : (s.bindValues.findIdx? (fun b => strictEq b v)).isSome
  · obtain ⟨j0, hj0⟩ := Option.isSome_iff_exists.mp hi
    have hj0lt : j0 < s.bindValues.length :=
      (List.findIdx?_eq_some_iff_findIdx_eq.mp hj0).1
    have e : bindStep v s = { s with
        query := s.query ++
          ("@" ++ ((if isResource v then "@" ++ ("value" ++ toString j0)
                    else "value" ++ toString j0) ++
            s.restStrings.headD "")),
        doneStrings := s.curString :: s.doneStrings,
        curString := s.restStrings.headD "",
        restStrings := s.restStrings.tail,
        doneArgs := v :: s.doneArgs,
        restArgs := s.restArgs.tail } := by
      simp [bindStep, hj0, hi, String.append_assoc]
    rw [e]
    refine ⟨?_, htail, hct, ?_, hlen⟩
    · have hdata : (s.query ++
          ("@" ++ ((if isResource v then "@" ++ ("value" ++ toString j0)
                    else "value" ++ toString j0) ++
            s.restStrings.headD ""))).data =
          s.query.data ++
            (tokChars (isResource v) j0 ++ (s.restStrings.headD "").data) := by
        rw [String.data_append, bindTok_data]
      rw [hdata]
      exact shaped_append_tok _ _ (Nat.le_refl _) _ hshape _ _ (by omega) _
        hh1 hh2
    · intro kv hkv
      exact infix_data_append _ _ _ (hdir2 kv hkv)
  · have hnone := Option.not_isSome_iff_eq_none.mp hi
    have e : bindStep v s = { s with
        query := s.query ++
          ("@" ++
            ((if isResource v then
                "@" ++ ("value" ++ toString s.bindValues.length)
              else "value" ++ toString s.bindValues.length) ++
              s.restStrings.headD "")),
        doneStrings := s.curString :: s.doneStrings,
        curString := s.restStrings.headD "",
        restStrings := s.restStrings.tail,
        doneArgs := v :: s.doneArgs,
        restArgs := s.restArgs.tail,
        bindValues := s.bindValues ++ [v],
        bindVars := s.bindVars ++
          [((if isResource v then
              "@" ++ ("value" ++ toString s.bindValues.length)
            else "value" ++ toString s.bindValues.length),
            resolveValue v)] } := by
      simp [bindStep, hnone, hi, String.append_assoc]
    rw [e]
    refine ⟨?_, htail, hct, ?_, by simp [hlen]⟩
    · have hdata : (s.query ++
          ("@" ++
            ((if isResource v then
                "@" ++ ("value" ++ toString s.bindValues.length)
              else "value" ++ toString s.bindValues.length) ++
              s.restStrings.headD ""))).data =
          s.query.data ++
            (tokChars (isResource v) s.bindValues.length ++
              (s.restStrings.headD "").data) := by
        rw [String.data_append, bindTok_data]
      rw [hdata]
      refine shaped_append_tok s.bindVars.length _ (by simp) _ hshape _ _
        ?_ _ hh1 hh2
      simp [hlen]
    · intro kv hkv
      rcases List.mem_append.mp hkv with hold | hnew
      · exact infix_data_append _ _ _ (hdir2 kv hold)
      · simp only [List.mem_singleton] at hnew
        subst hnew
        refine ⟨s.query.data, (s.restStrings.headD "").data, ?_⟩
        simp [String.data_append, List.append_assoc]

theorem cleanState_step (s : BuilderState) (h : CleanState s) :
    CleanState (aqlStep s) := by
  obtain ⟨hshape, hfr, hca, hdir2, hlen⟩ := h
  have hhead : cleanFrag (s.restStrings.headD "") = true := headD_clean _ hfr
  have htail : ∀ f ∈ s.restStrings.tail, cleanFrag f = true :=
    fun f hf => hfr f (List.mem_of_mem_tail hf)
  match hr : s.restArgs with
  | [] =>
    have e : aqlStep s = s := by simp [aqlStep, hr]
    rw [e]
    exact ⟨hshape, hfr, hca, hdir2, hlen⟩
  | raw :: rest =>
    rw [hr] at hca
    simp only [cleanArgs, Bool.and_eq_true] at hca
    obtain ⟨hcv, hcr⟩ := hca
    cases raw with
    | genQuery q bv ss as =>
      simp only [cleanVal, Bool.and_eq_true] at hcv
      obtain ⟨⟨hq0, hss⟩, hcas⟩ := hcv
      by_cases he : as.isEmpty
      · have hqc : cleanFrag q = true := by
          rw [he] at hq0
          simpa using hq0
        have e : aqlStep s =
            { s with query := s.query ++ (q ++ s.restStrings.headD ""),
                     curString := s.curString ++ (q ++ s.restStrings.headD ""),
                     restStrings := s.restStrings.tail,
                     restArgs := rest } := by
          simp [aqlStep, hr, he]
        rw [e]
        refine ⟨?_, htail, hcr, ?_, hlen⟩
        · exact shaped_append_fragStr _ _ _ hshape
            (cleanFrag_appendStr _ _ hqc hhead)
        · intro kv hkv
          exact infix_data_append _ _ _ (hdir2 kv hkv)
      · have e : aqlStep s =
            { s with query := s.query ++ ss.headD "",
                     curString := s.curString ++ ss.headD "",
                     restStrings :=
                       (ss.drop 1).take (as.length - 1) ++
                         (ss.getD as.length "" ++ s.restStrings.headD "") ::
                           s.restStrings.tail,
                     restArgs := as ++ rest } := by
          simp [aqlStep, hr, he]
        rw [e]
        have hssc : ∀ f ∈ ss, cleanFrag f = true := by
          simpa [List.all_eq_true] using hss
        have hgetD : cleanFrag (ss.getD as.length "") = true := by
          rw [List.getD_eq_getElem?_getD]
          cases hg : ss[as.length]? with
          | none => decide
          | some f => exact hssc f (List.getElem?_mem hg)
        refine ⟨?_, ?_, ?_, ?_, hlen⟩
        · exact shaped_append_fragStr _ _ _ hshape (headD_clean ss hssc)
        · intro f hf
          rcases List.mem_append.mp hf with hf1 | hf2
          · exact hssc f (List.mem_of_mem_drop (List.mem_of_mem_take hf1))
          · rcases List.mem_cons.mp hf2 with hfe | hft
            · rw [hfe]
              exact cleanFrag_appendStr _ _ hgetD hhead
            · exact htail f hft
        · rw [cleanArgs_append, hcas, hcr]
          rfl
        · intro kv hkv
          exact infix_data_append _ _ _ (hdir2 kv hkv)
    | undef =>
      have e : aqlStep s =
          { s with query := s.query ++ s.restStrings.headD "",
                   doneStrings := s.curString :: s.doneStrings,
                   curString := s.restStrings.headD "",
                   restStrings := s.restStrings.tail,
                   doneArgs := AqlValue.undef :: s.doneArgs,
                   restArgs := rest } := by
        simp [aqlStep, hr]
      rw [e]
      refine ⟨?_, htail, hcr, ?_, hlen⟩
      · exact shaped_append_fragStr _ _ _ hshape hhead
      · intro kv hkv
        exact infix_data_append _ _ _ (hdir2 kv hkv)
    | lit t =>
      simp only [cleanVal] at hcv
      have e : aqlStep s =
          { s with query := s.query ++ (t ++ s.restStrings.headD ""),
                   doneStrings := s.curString :: s.doneStrings,
                   curString := s.restStrings.headD "",
                   restStrings := s.restStrings.tail,
                   doneArgs := AqlValue.lit t :: s.doneArgs,
                   restArgs := rest } := by
        simp [aqlStep, hr]
      rw [e]
      refine ⟨?_, htail, hcr, ?_, hlen⟩
      · exact shaped_append_fragStr _ _ _ hshape
          (cleanFrag_appendStr _ _ hcv hhead)
      · intro kv hkv
        exact infix_data_append _ _ _ (hdir2 kv hkv)
    | resource i k nm =>
      have e : aqlStep s = bindStep (.resource i k nm) s := by
        simp [aqlStep, hr]
      rw [e]
      exact cleanState_bindStep s _ rest hr hshape hfr hcr hdir2 hlen
    | bind v =>
      have e : aqlStep s = bindStep (.bind v) s := by
        simp [aqlStep, hr]
      rw [e]
      exact cleanState_bindStep s _ rest hr hshape hfr hcr hdir2 hlen

theorem cleanState_loop (s : BuilderState) (h : CleanState s) :
    CleanState (aqlLoop s) := by
  induction s using aqlLoop.induct with
  | case1 s hnil => rwa [aqlLoop_eq, if_pos hnil]
  | case2 s hc ih =>
    rw [aqlLoop_eq, if_neg hc]
    exact ih (cleanState_step s h)

/-- C8 counterexample: the correspondence invariant as stated — covering
arbitrary literal fragments — is false: a literal fragment may itself
contain placeholder-shaped text.  The invocation with the single fragment
`"@value0"` and no values yields a query string containing the
placeholder token `@value0` while its `bindVars` mapping is empty. -/
theorem correspondence_counterexample :
    ("@value" ++ toString (0 : Nat)).data <:+:
      (aql ["@value0"] []).queryStr.data ∧
    ¬(0 : Nat) < (aql ["@value0"] []).bindVarsOf.length ∧
    (aql ["@value0"] []).bindVarsOf = [] := by
  have hq : (aql ["@value0"] []).queryStr = "@value0" := by
    simp [aql, aqlLoop_eq, initState, AqlValue.queryStr]
  have hd : ("@value" ++ toString (0 : Nat)).data = "@value0".data := by
    rw [token_data_eq]
    have h0 : natDigits 0 = ['0'] := by
      rw [natDigits]
      rfl
    simp [tokChars, valueTok, h0]
  refine ⟨?_, ?_, ?_⟩
  · rw [hq, hd]
  · simp [aql, aqlLoop_eq, initState, AqlValue.bindVarsOf]
  · simp [aql, aqlLoop_eq, initState, AqlValue.bindVarsOf]

/-- C8 (amended): query/`bindVars` correspondence.  For every invocation
whose literal fragments (including join separators), literal texts and
nested-query fragments are clean — they contain no `@` character and do
not begin with a decimal digit — every placeholder token `@value<n>`
occurring in the query string corresponds to a `bindVars` entry
(`n` is below the number of entries), and every `bindVars` key is
referenced at least once as a placeholder in the query string (the
latter without any cleanliness assumption on the interpolated values'
shapes beyond the fragments walked). -/
theorem query_bindVars_correspondence (ts : List String)
    (args : List AqlValue) (hts : ∀ f ∈ ts, cleanFrag f = true)
    (hargs : cleanArgs args = true) :
    (∀ n : Nat,
      ("@value" ++ toString n).data <:+: (aql ts args).queryStr.data →
      n < (aql ts args).bindVarsOf.length) ∧
    (∀ kv ∈ (aql ts args).bindVarsOf,
      ("@" ++ kv.1).data <:+: (aql ts args).queryStr.data) := by
  have hinit : CleanState (initState ts args) := by
    refine ⟨?_, ?_, hargs, ?_, rfl⟩
    · refine Shaped.frag _ ?_
      have := headD_clean ts hts
      exact (cleanFrag_parts _ this).1
    · intro f hf
      exact hts f (List.mem_of_mem_tail hf)
    · intro kv hkv
      simp [initState] at hkv
  obtain ⟨hshape, -, -, hdir2, -⟩ := cleanState_loop _ hinit
  constructor
  · intro n h
    have hq : (aql ts args).queryStr = (aqlLoop (initState ts args)).query := by
      simp [aql, AqlValue.queryStr]
    have hbv : (aql ts args).bindVarsOf =
        (aqlLoop (initState ts args)).bindVars := by
      simp [aql, AqlValue.bindVarsOf]
    rw [hq] at h
    rw [hbv]
    rw [token_data_eq] at h
    exact shaped_no_spurious _ _ hshape n (by simpa [tokChars] using h)
  · intro kv hkv
    have hq : (aql ts args).queryStr = (aqlLoop (initState ts args)).query := by
      simp [aql, AqlValue.queryStr]
    have hbv : (aql ts args).bindVarsOf =
        (aqlLoop (initState ts args)).bindVars := by
      simp [aql, AqlValue.bindVarsOf]
    rw [hq]
    rw [hbv] at hkv
    exact hdir2 kv hkv

/-- Witness for `query_bindVars_correspondence` at a concrete invocation
with a resource bind and a scalar bind. -/
theorem query_bindVars_correspondence_witness :
    (∀ f ∈ ["FOR d IN ", " FILTER d.x == ", " RETURN d"],
      cleanFrag f = true) ∧
    cleanArgs [AqlValue.resource 0 .collection "items",
      AqlValue.bind (.num 5)] = true ∧
    ((∀ n : Nat,
      ("@value" ++ toString n).data <:+:
        (aql ["FOR d IN ", " FILTER d.x == ", " RETURN d"]
          [AqlValue.resource 0 .collection "items",
            AqlValue.bind (.num 5)]).queryStr.data →
      n < (aql ["FOR d IN ", " FILTER d.x == ", " RETURN d"]
          [AqlValue.resource 0 .collection "items",
            AqlValue.bind (.num 5)]).bindVarsOf.length) ∧
    (∀ kv ∈ (aql ["FOR d IN ", " FILTER d.x == ", " RETURN d"]
          [AqlValue.resource 0 .collection "items",
            AqlValue.bind (.num 5)]).bindVarsOf,
      ("@" ++ kv.1).data <:+:
        (aql ["FOR d IN ", " FILTER d.x == ", " RETURN d"]
          [AqlValue.resource 0 .collection "items",
            AqlValue.bind (.num 5)]).queryStr.data)) :=
  ⟨by decide, by simp [cleanArgs, cleanVal],
    query_bindVars_correspondence _ _ (by decide)
      (by simp [cleanArgs, cleanVal])⟩

end Arangojs
